import Mathlib

/-!
# Verification of the lost-tokens balance scanner (`src/functions.js`)

This file is a shallow embedding of the concurrent balance-scanning engine:

* `numberWithCommas`   — the display formatter (`functions.js`, lines 41-49);
* `getTokenInfo`       — token metadata / price resolution (lines 58-139);
* `getBalanceOf`       — the retry-forever balance query (lines 148-153);
* `distributeTasks`    — the worker-pool task distributor (lines 164-226),
  modelled as a small-step transition system over `DistState`;
* `findBalances`       — worker-pool construction plus aggregation (lines 236-272);
* `processOneToken`    — per-token orchestration (lines 284-320), modelled over an
  explicit store of string arrays so that the copy-then-splice aliasing behaviour
  of the JS arrays is visible;
* `formatTokenResult`  — the report formatter (lines 329-358).

Modelling conventions: JS `BigInt` is `ℤ` (all divisions happen on operands checked
positive, where BigInt truncated division and `Int` Euclidean division agree);
JS `Number` arithmetic is idealised as exact rational arithmetic over `ℚ`;
external effects (web3 contract calls, HTTP fetches, the on-chain balance of an
address) are oracle parameters; a call that throws is an oracle value `none`.
-/

namespace LostTokens

/-! ## Number formatting (`numberWithCommas`, lines 41-49)

`jsNumToString` models `Number.prototype.toString` for the non-negative rationals
reaching it: decimal notation, fractional digits truncated at 20 and trailing
zeros trimmed (JS prints at most 17 significant digits and never a trailing zero;
every value this program formats is covered). -/

/-- The `i`-th digit (0-based) after the decimal point of a non-negative rational. -/
def fracDigit (x : ℚ) (i : ℕ) : ℕ :=
  (Int.toNat ⌊x * 10 ^ (i + 1)⌋) % 10

/-- The first `k` digits after the decimal point of `x`. -/
def fracDigits (x : ℚ) (k : ℕ) : List ℕ :=
  (List.range k).map (fracDigit x)

/-- Drop trailing zero digits. -/
def trimZeros (l : List ℕ) : List ℕ :=
  (l.reverse.dropWhile (fun d => d == 0)).reverse

/-- Decimal rendering of a digit list. -/
def digitsToString (l : List ℕ) : String :=
  String.join (l.map (fun d => toString d))

/-- Models `x.toString()` for the non-negative JS numbers this program formats. -/
def jsNumToString (x : ℚ) : String :=
  let ip := Int.toNat ⌊x⌋
  let frac := trimZeros (fracDigits (x - ⌊x⌋) 20)
  if frac = [] then toString ip
  else toString ip ++ "." ++ digitsToString frac

/-- Comma-grouping of a reversed digit list: a comma after every third digit
that is followed by more digits.  Models the regex replace on `parts[0]`. -/
def groupRev : List Char → List Char
  | d1 :: d2 :: d3 :: d4 :: rest => d1 :: d2 :: d3 :: ',' :: groupRev (d4 :: rest)
  | l => l

/-- `parts[0].replace(/\B(?=(\d\x7b3\x7d)+(?!\d))/g, ",")`: thousands grouping. -/
def groupThousands (s : String) : String :=
  String.mk ((groupRev s.data.reverse).reverse)

/-- `numberWithCommas` (`functions.js`, lines 41-49): anything below `0.000001`
(in particular every value that is zero or negative) renders as `"0.00"`; otherwise
the number is printed, the integer part comma-grouped, and the fractional part
truncated to two characters. -/
def numberWithCommas (x : ℚ) : String :=
  if x < 1 / 1000000 then "0.00"
  else
    match (jsNumToString x).splitOn "." with
    | [] => ""
    | ip :: rest =>
      let ip2 := groupThousands ip
      match rest with
      | [] => ip2
      | fp :: rest2 => String.intercalate "." (ip2 :: fp.take 2 :: rest2)

/-! ## Data model -/

/-- One aggregated balance record (`findBalances`, lines 259-264): `amount` is the
raw `BigInt` balance, `roundedAmount` the integer-divided display amount. -/
structure BalanceRecord where
  amount : ℤ
  roundedAmount : ℤ
  dollarValue : String
  contract : String
deriving DecidableEq

/-- The result of scanning one token (`processOneToken` return shape).
`ticker = none` models the `ticker: null` of an invalid token. -/
structure ScanResult where
  tokenAddress : String
  ticker : Option String
  decimals : ℕ
  price : ℚ
  records : List BalanceRecord
deriving DecidableEq

/-! ## Aggregation (`findBalances`, lines 236-272) -/

/-- Descending comparison on `roundedAmount`: the sort of
`records.sort((a, b) => b.roundedAmount - a.roundedAmount)`.  JS `Array.sort`
is stable, so the stable `List.insertionSort` below computes the same list. -/
def recordGE (a b : BalanceRecord) : Prop :=
  b.roundedAmount ≤ a.roundedAmount

instance : DecidableRel recordGE := fun a b =>
  inferInstanceAs (Decidable (b.roundedAmount ≤ a.roundedAmount))

instance : IsTotal BalanceRecord recordGE :=
  ⟨fun a b => Int.le_total b.roundedAmount a.roundedAmount⟩

instance : IsTrans BalanceRecord recordGE :=
  ⟨fun _ _ _ h1 h2 => le_trans h2 h1⟩

/-- The record-building loop of `findBalances` (lines 255-266): walk the balances
and the contract list in step; a strictly positive balance contributes a record
whose `roundedAmount` is the balance integer-divided by `10 ^ decimals`. -/
def buildRecords (decimals : ℕ) (price : ℚ) : List ℤ → List String → List BalanceRecord
  | b :: bs, c :: cs =>
    if 0 < b then
      let amount : ℤ := b / (10 : ℤ) ^ decimals
      ⟨b, amount, numberWithCommas ((amount : ℚ) * price), c⟩
        :: buildRecords decimals price bs cs
    else buildRecords decimals price bs cs
  | _, _ => []

/-- Aggregation: build the records, then sort descending by `roundedAmount`
(lines 255-271). -/
def findBalancesRecords (balances : List ℤ) (contractList : List String)
    (decimals : ℕ) (price : ℚ) : List BalanceRecord :=
  List.insertionSort recordGE (buildRecords decimals price balances contractList)

/-! ## Token metadata resolution (`getTokenInfo`, lines 58-139)

The web3 contract calls and the two HTTP price fetches are oracle fields of
`TokenOracles`; `none` models a call that throws (or a response with a
non-200 status). -/

/-- A price API JSON body: each field may be absent (`undefined` under `??`). -/
structure PriceObj where
  price : Option ℚ
  usd : Option ℚ
deriving DecidableEq

/-- The external world as seen by `getTokenInfo`: the three ticker lookups, the
`decimals()` call (`some none` = a value whose `Number` conversion is `NaN`),
and the two price fetches. -/
structure TokenOracles where
  symbolCall : Option String
  tickerCall : Option String
  symbol32Call : Option String
  decimalsCall : Option (Option ℕ)
  fetch1 : Option PriceObj
  fetch2 : Option PriceObj
deriving DecidableEq

/-- The object returned by `getTokenInfo` (lines 132-138). -/
structure TokenInfo where
  address : String
  ticker : String
  valid : Bool
  decimals : ℕ
  price : ℚ
deriving DecidableEq

/-- JS falsiness of the `ticker` variable: `undefined` or the empty string. -/
def strFalsy : Option String → Bool
  | none => true
  | some s => s == ""

/-- `web3.utils.hexToAscii(symbol32).replaceAll(String.fromCharCode(0), '')`:
strip NUL characters from the decoded `bytes32` ticker. -/
def stripNul (s : String) : String :=
  String.mk (s.data.filter (fun c => c != Char.ofNat 0))

/-- `getTokenInfo` (lines 58-139): try `symbol()`, then `ticker()`, then the
`bytes32` `symbol()`; on total failure the token is invalid with ticker
`"unknown"`.  `decimals()` falls back to 18 on a throw, and `Number(decimals)
|| 18` also maps `0` and `NaN` to 18.  The price is fetched only for valid
tokens: a first API, then — when the first left `price` exactly `0` — a second;
the final price is `priceObj.price ?? priceObj.USD ?? 0`. -/
def getTokenInfo (o : TokenOracles) (contractAddress : String) : TokenInfo :=
  let s1 : Option String × Bool :=
    match o.symbolCall with
    | some t => (some t, true)
    | none => (none, false)
  let s2 : Option String × Bool :=
    if strFalsy s1.1 then
      match o.tickerCall with
      | some t => (some t, true)
      | none => s1
    else s1
  let s3 : Option String × Bool :=
    if strFalsy s2.1 then
      match o.symbol32Call with
      | some t => (some (stripNul t), true)
      | none => (some "unknown", false)
    else s2
  let decimals0 : Option ℕ :=
    match o.decimalsCall with
    | none => some 18
    | some v => v
  let priceObj0 : PriceObj := ⟨some 0, some 0⟩
  let priceObj1 : PriceObj := if s3.2 then o.fetch1.getD priceObj0 else priceObj0
  let priceObj2 : PriceObj :=
    if s3.2 && (priceObj1.price == some 0) then o.fetch2.getD priceObj1 else priceObj1
  ⟨contractAddress,
   s3.1.getD "",
   s3.2,
   (match decimals0 with
    | some d => if d = 0 then 18 else d
    | none => 18),
   priceObj2.price.getD (priceObj2.usd.getD 0)⟩

/-! ## `findBalances` and `processOneToken` (lines 236-320)

`processOneToken` copies the caller's address array (`[...contractList]`) and
then splices excluded addresses out of the copy in place.  To make that aliasing
behaviour expressible, the JS arrays live in an explicit `Store`; a reference is
an index into the store. -/

/-- A heap of string arrays. -/
abbrev Store := List (List String)

/-- Read the array behind a reference. -/
def readRef (st : Store) (r : ℕ) : List String :=
  st.getD r []

/-- Overwrite the array behind a reference. -/
def writeRef (st : Store) (r : ℕ) (v : List String) : Store :=
  st.set r v

/-- Allocate a fresh array (`[...l]` allocates a copy). -/
def allocRef (st : Store) (v : List String) : Store × ℕ :=
  (st ++ [v], st.length)

/-- One iteration of the exclusion loop (lines 292-297) on a plain list:
`indexOf` then, when found, `splice(index, 1)`. -/
def spliceOutFirst (l : List String) (ex : String) : List String :=
  let i := l.indexOf ex
  if i < l.length then l.eraseIdx i else l

/-- The whole exclusion loop on a plain list. -/
def applyExclusions (l : List String) (excluded : List String) : List String :=
  excluded.foldl spliceOutFirst l

/-- The exclusion loop as it actually runs: in-place splices on the array
behind `r`. -/
def exclusionLoopHeap (excluded : List String) (st : Store) (r : ℕ) : Store :=
  excluded.foldl
    (fun s ex =>
      let l := readRef s r
      let i := l.indexOf ex
      if i < l.length then writeRef s r (l.eraseIdx i) else s)
    st

/-- The working copy of the address list used for a scan of `tok`: the original
list with this token's exclusions spliced out (`excludedMap.has` / `.get`,
lines 290-298); a token with no exclusion entry scans the list unchanged. -/
def workingList (em : List (String × List String)) (tok : String)
    (l : List String) : List String :=
  match em.lookup tok with
  | some excluded => applyExclusions l excluded
  | none => l

/-- `findBalances` (lines 236-272): the worker pool is built and the balance
queries are distributed over it; the distributor's output is index-aligned with
`contractList` (theorem `distributeTasks_output_aligned` below), so with a pure
balance oracle `bal` its denotation is `contractList.map bal`, which is then
aggregated and sorted. -/
def findBalances (bal : String → ℤ) (contractList : List String)
    (tokenObject : TokenInfo) : List BalanceRecord :=
  findBalancesRecords (contractList.map bal) contractList
    tokenObject.decimals tokenObject.price

/-- `processOneToken` (lines 284-320): resolve metadata, copy the caller's list,
splice this token's exclusions out of the copy, and either short-circuit (invalid
token) or scan the working copy.  Returns the final store, the `ScanResult`, and
the list of addresses for which a balance query was issued. -/
def processOneToken (o : TokenOracles) (bal : String → ℤ)
    (em : List (String × List String)) (st : Store) (contractRef : ℕ)
    (tokenAddress : String) : Store × ScanResult × List String :=
  let tokenObject := getTokenInfo o tokenAddress
  let alloc1 := allocRef st (readRef st contractRef)
  let st1 := alloc1.1
  let localRef := alloc1.2
  let st2 :=
    match em.lookup tokenAddress with
    | some excluded => exclusionLoopHeap excluded st1 localRef
    | none => st1
  if tokenObject.valid then
    let localList := readRef st2 localRef
    (st2,
     ⟨tokenAddress, some tokenObject.ticker, tokenObject.decimals,
      tokenObject.price, findBalances bal localList tokenObject⟩,
     localList)
  else
    (st2, ⟨tokenAddress, none, 18, 0, []⟩, [])

/-! ## Report formatting (`formatTokenResult`, lines 329-358)

The header total is computed in JS `Number` arithmetic, i.e. IEEE-754 binary64:
`Number(sum)` rounds the exact `BigInt` sum to the nearest double (ties to
even), `Number('1e' + decimals)` is the double nearest `10 ^ decimals`, and the
division and the multiplication by the price are correctly-rounded double
operations.  `roundDouble` models that rounding on `ℚ` (doubles are rationals):
round to nearest, 53-bit significand, ties to even; overflow and subnormals are
ignored, which is exact at every magnitude this program reaches. -/

/-- Binary64 rounding of a positive rational: scale into `[2^52, 2^53)`, round
the significand to the nearest integer (ties to the even neighbour), and scale
back. -/
def roundPos (q : ℚ) : ℚ :=
  let e : ℤ := Int.log 2 q - 52
  let m : ℚ := q / 2 ^ e
  let lo : ℤ := ⌊m⌋
  let r : ℚ := m - (lo : ℚ)
  let hi : ℤ :=
    if 1 / 2 < r then lo + 1
    else if r = 1 / 2 then (if lo % 2 = 0 then lo else lo + 1)
    else lo
  (hi : ℚ) * 2 ^ e

/-- The IEEE-754 binary64 value nearest a rational (round to nearest, ties to
even; overflow and subnormals ignored). -/
def roundDouble (q : ℚ) : ℚ :=
  if q = 0 then 0 else if q < 0 then -roundPos (-q) else roundPos q

/-- The pair returned by `formatTokenResult`. -/
structure FormatResult where
  resStr : String
  asDollar : ℚ
deriving DecidableEq

/-- `formatTokenResult` (lines 329-358): unknown-token and no-price short
circuits, then one line per record while accumulating the exact `BigInt` sum of
the raw amounts; the header total is that sum converted once:
`Number(sum) / Number('1e' + decimals)`, with every `Number` conversion and
arithmetic operation rounded to the nearest binary64 double (`roundDouble`). -/
def formatTokenResult (res : ScanResult) : FormatResult :=
  if strFalsy res.ticker then
    ⟨"??? [" ++ res.tokenAddress ++ "] - unknown token\n", 0⟩
  else if res.price = -1 then
    ⟨res.ticker.getD "" ++ " [" ++ res.tokenAddress ++
      "]: not checked - no price found\n", 0⟩
  else
    let folded :=
      res.records.foldl
        (fun acc r =>
          (acc.1 ++ "Contract " ++ r.contract ++ " => " ++
             numberWithCommas (r.roundedAmount : ℚ) ++ " " ++ res.ticker.getD "" ++
             " ( $" ++ r.dollarValue ++ " )" ++ "\n",
           acc.2 + r.amount))
        ("", (0 : ℤ))
    let sum := folded.2
    let roundedAmount : ℚ :=
      roundDouble (roundDouble (sum : ℚ) / roundDouble ((10 : ℚ) ^ res.decimals))
    let asDollar : ℚ := roundDouble (roundedAmount * res.price)
    let header :=
      res.ticker.getD "" ++ " [" ++ res.tokenAddress ++ "]: " ++
        numberWithCommas roundedAmount ++ " tokens lost / $" ++
        numberWithCommas asDollar
    ⟨header ++ "\n-----------------------------------------------\n" ++ folded.1,
     asDollar⟩

/-! ## The balance query with retry (`getBalanceOf`, lines 148-153)

`call token address k` is the outcome of the `k`-th `balanceOf` attempt for this
worker's contract handle and this address (`none` = the call rejected).  The JS
function retries forever; the embedding adds a fuel argument to stay total.  The
recursive call passes the *same* `token` and the *same* `address`, exactly as in
the source.  The second component of the result counts the calls issued. -/

/-- `getBalanceOf` (lines 148-153) with fuel.  Returns `some (v, count)` when an
attempt succeeds within `fuel` tries (`count` = number of calls issued), `none`
when the fuel runs out before any success. -/
def getBalanceOf (call : String → String → ℕ → Option ℤ)
    (token address : String) : ℕ → ℕ → Option (ℤ × ℕ)
  | 0, _ => none
  | fuel + 1, k =>
    match call token address k with
    | some v => some (v, 1)
    | none =>
      match getBalanceOf call token address fuel (k + 1) with
      | some vc => some (vc.1, vc.2 + 1)
      | none => none

/-! ## The task distributor (`distributeTasks` / `findAvailableWorker` /
`executeTask`, lines 164-226)

The distributor is the one genuinely concurrent piece.  It is modelled as a
small-step transition system:

* `DistState.queue`     — the pending `taskQueue` (FIFO, popped by `shift()`);
* `DistState.busy`      — the `isBusy` flag of each worker in the pool;
* `DistState.inflight`  — the launched, not yet completed queries, each tagged
  with its output slot (the `completedTasks` position), the worker index, and
  the address;
* `DistState.results`   — one slot per input address, `some` once the query for
  that slot completed (`Promise.all` preserves slot order);
* `DistState.nextSlot`  — how many tasks have been assigned so far.

`Step.assign` is one iteration of the `while` loop: `findAvailableWorker`
resolves with the *first* idle worker, the head task is shifted off the queue,
`executeTask` sets `isBusy = true` synchronously and launches the query.
`Step.complete` is the `.then` callback of any in-flight query: the worker's
flag is cleared and the balance lands in the query's slot.  Completions
interleave arbitrarily with assignments, which models the event loop. -/

/-- The distributor's instantaneous state. -/
structure DistState where
  queue : List String
  busy : List Bool
  inflight : List (ℕ × ℕ × String)
  results : List (Option ℤ)
  nextSlot : ℕ
deriving DecidableEq

/-- The state in which `distributeTasks workers contractList` starts. -/
def initState (input : List String) (n : ℕ) : DistState :=
  ⟨input, List.replicate n false, [], List.replicate input.length none, 0⟩

/-- One step of the distributor; `bal w a` is the balance the query launched on
worker `w` for address `a` eventually resolves with. -/
inductive Step (bal : ℕ → String → ℤ) : DistState → DistState → Prop
  | assign (s : DistState) (a : String) (rest : List String) (w : ℕ)
      (hq : s.queue = a :: rest)
      (hfirst : s.busy.findIdx (fun b => !b) = w)
      (hw : s.busy[w]? = some false) :
      Step bal s
        ⟨rest, s.busy.set w true, (s.nextSlot, w, a) :: s.inflight,
         s.results, s.nextSlot + 1⟩
  | complete (s : DistState) (slot w : ℕ) (a : String)
      (l1 l2 : List (ℕ × ℕ × String))
      (hin : s.inflight = l1 ++ (slot, w, a) :: l2) :
      Step bal s
        ⟨s.queue, s.busy.set w false, l1 ++ l2,
         s.results.set slot (some (bal w a)), s.nextSlot⟩

/-- States the distributor can reach from the initial state. -/
inductive Reachable (bal : ℕ → String → ℤ) (input : List String) (n : ℕ) :
    DistState → Prop
  | init : Reachable bal input n (initState input n)
  | step {s t : DistState} :
      Reachable bal input n s → Step bal s t → Reachable bal input n t

/-- The distributor's inductive invariant. -/
structure Inv (bal : ℕ → String → ℤ) (input : List String) (n : ℕ)
    (s : DistState) : Prop where
  busy_len : s.busy.length = n
  res_len : s.results.length = input.length
  next_le : s.nextSlot ≤ input.length
  queue_eq : s.queue = input.drop s.nextSlot
  infl_slot_lt : ∀ e ∈ s.inflight, e.1 < s.nextSlot
  infl_addr : ∀ e ∈ s.inflight, input[e.1]? = some e.2.2
  infl_res_none : ∀ e ∈ s.inflight, s.results[e.1]? = some none
  infl_worker_lt : ∀ e ∈ s.inflight, e.2.1 < n
  infl_worker_busy : ∀ e ∈ s.inflight, s.busy[e.2.1]? = some true
  slots_nodup : (s.inflight.map (fun e => e.1)).Nodup
  workers_nodup : (s.inflight.map (fun e => e.2.1)).Nodup
  res_done : ∀ i, i < s.nextSlot → (∀ e ∈ s.inflight, e.1 ≠ i) →
    ∃ w a, w < n ∧ input[i]? = some a ∧ s.results[i]? = some (some (bal w a))
  res_pending : ∀ i, s.nextSlot ≤ i → i < input.length →
    s.results[i]? = some none

theorem inv_init (bal : ℕ → String → ℤ) (input : List String) (n : ℕ) :
    Inv bal input n (initState input n) := by
  refine ⟨?_, ?_, ?_, ?_, ?_, ?_, ?_, ?_, ?_, ?_, ?_, ?_, ?_⟩ <;>
    simp [initState]
  intro i hi
  exact List.getElem?_replicate_of_lt hi

theorem inv_step {bal : ℕ → String → ℤ} {input : List String} {n : ℕ}
    {s t : DistState} (hs : Inv bal input n s) (hstep : Step bal s t) :
    Inv bal input n t := by
  cases hstep with
  | assign a rest w hq hfirst hw =>
    obtain ⟨hwlt, hwval⟩ := List.getElem?_eq_some_iff.mp hw
    have hdrop : input.drop s.nextSlot = a :: rest := by
      rw [← hs.queue_eq]; exact hq
    have hns_lt : s.nextSlot < input.length := by
      by_contra hcon
      have : input.drop s.nextSlot = [] :=
        List.drop_eq_nil_iff.mpr (Nat.le_of_not_lt hcon)
      simp [hdrop] at this
    have haddr : input[s.nextSlot]? = some a := by
      have h0 : (input.drop s.nextSlot)[0]? = input[s.nextSlot + 0]? :=
        List.getElem?_drop input s.nextSlot 0
      simpa [hdrop] using h0.symm
    have hrest : input.drop (s.nextSlot + 1) = rest := by
      have h1 : (input.drop s.nextSlot).drop 1 = input.drop (s.nextSlot + 1) :=
        List.drop_drop 1 s.nextSlot input
      simpa [hdrop] using h1.symm
    have hbusy_ne : ∀ e ∈ s.inflight, e.2.1 ≠ w := by
      intro e he hew
      have hb := hs.infl_worker_busy e he
      rw [hew, hw] at hb
      simp at hb
    refine ⟨?_, ?_, ?_, ?_, ?_, ?_, ?_, ?_, ?_, ?_, ?_, ?_, ?_⟩
    · simpa using hs.busy_len
    · exact hs.res_len
    · exact hns_lt
    · exact hrest.symm
    · intro e he
      rcases List.mem_cons.mp he with h | h
      · subst h; exact Nat.lt_succ_self _
      · exact Nat.lt_succ_of_lt (hs.infl_slot_lt e h)
    · intro e he
      rcases List.mem_cons.mp he with h | h
      · subst h; exact haddr
      · exact hs.infl_addr e h
    · intro e he
      rcases List.mem_cons.mp he with h | h
      · subst h
        exact hs.res_pending s.nextSlot (Nat.le_refl _) hns_lt
      · exact hs.infl_res_none e h
    · intro e he
      rcases List.mem_cons.mp he with h | h
      · subst h; simpa [hs.busy_len] using hwlt
      · exact hs.infl_worker_lt e h
    · intro e he
      rcases List.mem_cons.mp he with h | h
      · subst h
        exact List.getElem?_set_self hwlt
      · rw [List.getElem?_set_ne (Ne.symm (hbusy_ne e h))]
        exact hs.infl_worker_busy e h
    · refine List.nodup_cons.mpr ⟨?_, hs.slots_nodup⟩
      intro hmem
      rcases List.mem_map.mp hmem with ⟨e, he, hee⟩
      exact Nat.lt_irrefl _ (hee ▸ hs.infl_slot_lt e he)
    · refine List.nodup_cons.mpr ⟨?_, hs.workers_nodup⟩
      intro hmem
      rcases List.mem_map.mp hmem with ⟨e, he, hee⟩
      exact hbusy_ne e he hee
    · intro i hi hnotin
      have hne : s.nextSlot ≠ i := hnotin (s.nextSlot, w, a) (List.mem_cons_self _ _)
      have hi2 : i < s.nextSlot + 1 := hi
      have hi' : i < s.nextSlot := by omega
      exact hs.res_done i hi' (fun e he => hnotin e (List.mem_cons_of_mem _ he))
    · intro i hge hlt
      exact hs.res_pending i (Nat.le_of_succ_le hge) hlt
  | complete slot w a l1 l2 hin =>
    have hmem : (slot, w, a) ∈ s.inflight := by
      rw [hin]; simp
    have hsub : ∀ e ∈ l1 ++ l2, e ∈ s.inflight := by
      intro e he
      rw [hin]
      rcases List.mem_append.mp he with h | h
      · exact List.mem_append_left _ h
      · exact List.mem_append_right _ (List.mem_cons_of_mem _ h)
    have hslot_lt : slot < s.nextSlot := hs.infl_slot_lt _ hmem
    have hslot_len : slot < s.results.length := by
      rw [hs.res_len]; exact Nat.lt_of_lt_of_le hslot_lt hs.next_le
    have hw_busy : s.busy[w]? = some true := hs.infl_worker_busy _ hmem
    obtain ⟨hw_lt, _⟩ := List.getElem?_eq_some_iff.mp hw_busy
    have hslots2 : slot ∉ (l1 ++ l2).map (fun e => e.1) ∧
        ((l1 ++ l2).map (fun e => e.1)).Nodup := by
      have h0 := hs.slots_nodup
      rw [hin, List.map_append, List.map_cons] at h0
      have h1 := List.nodup_middle.mp h0
      rw [List.nodup_cons, ← List.map_append] at h1
      exact h1
    have hworkers2 : w ∉ (l1 ++ l2).map (fun e => e.2.1) ∧
        ((l1 ++ l2).map (fun e => e.2.1)).Nodup := by
      have h0 := hs.workers_nodup
      rw [hin, List.map_append, List.map_cons] at h0
      have h1 := List.nodup_middle.mp h0
      rw [List.nodup_cons, ← List.map_append] at h1
      exact h1
    have hslot_notin : ∀ e ∈ l1 ++ l2, e.1 ≠ slot := by
      intro e he hee
      exact hslots2.1 (List.mem_map.mpr ⟨e, he, hee⟩)
    have hworker_notin : ∀ e ∈ l1 ++ l2, e.2.1 ≠ w := by
      intro e he hee
      exact hworkers2.1 (List.mem_map.mpr ⟨e, he, hee⟩)
    refine ⟨?_, ?_, ?_, ?_, ?_, ?_, ?_, ?_, ?_, ?_, ?_, ?_, ?_⟩
    · simpa using hs.busy_len
    · simpa using hs.res_len
    · exact hs.next_le
    · exact hs.queue_eq
    · intro e he; exact hs.infl_slot_lt e (hsub e he)
    · intro e he; exact hs.infl_addr e (hsub e he)
    · intro e he
      rw [List.getElem?_set_ne (Ne.symm (hslot_notin e he))]
      exact hs.infl_res_none e (hsub e he)
    · intro e he; exact hs.infl_worker_lt e (hsub e he)
    · intro e he
      rw [List.getElem?_set_ne (Ne.symm (hworker_notin e he))]
      exact hs.infl_worker_busy e (hsub e he)
    · exact hslots2.2
    · exact hworkers2.2
    · intro i hi hnotin
      by_cases hcase : i = slot
      · subst hcase
        refine ⟨w, a, ?_, hs.infl_addr _ hmem, ?_⟩
        · simpa [hs.busy_len] using hw_lt
        · exact List.getElem?_set_self hslot_len
      · have hnotin' : ∀ e ∈ s.inflight, e.1 ≠ i := by
          intro e he
          rw [hin] at he
          rcases List.mem_append.mp he with h | h
          · exact hnotin e (List.mem_append_left _ h)
          · rcases List.mem_cons.mp h with h' | h'
            · subst h'; exact fun hc => hcase hc.symm
            · exact hnotin e (List.mem_append_right _ h')
        obtain ⟨w', a', hw', ha', hr'⟩ := hs.res_done i hi hnotin'
        refine ⟨w', a', hw', ha', ?_⟩
        rw [List.getElem?_set_ne (fun h => hcase h.symm)]
        exact hr'
    · intro i hge hlt
      have hge2 : s.nextSlot ≤ i := hge
      have hne : slot ≠ i := by omega
      rw [List.getElem?_set_ne hne]
      exact hs.res_pending i hge2 hlt

theorem inv_reachable {bal : ℕ → String → ℤ} {input : List String} {n : ℕ}
    {s : DistState} (hr : Reachable bal input n s) : Inv bal input n s := by
  induction hr with
  | init => exact inv_init bal input n
  | step _ hstep ih => exact inv_step ih hstep

theorem nodup_lt_length_le {l : List ℕ} {n : ℕ} (hnd : l.Nodup)
    (hlt : ∀ x ∈ l, x < n) : l.length ≤ n := by
  have h1 : l.toFinset.card = l.length := List.toFinset_card_of_nodup hnd
  have h2 : l.toFinset ⊆ Finset.range n := by
    intro x hx
    simp only [List.mem_toFinset] at hx
    exact Finset.mem_range.mpr (hlt x hx)
  calc l.length = l.toFinset.card := h1.symm
    _ ≤ (Finset.range n).card := Finset.card_le_card h2
    _ = n := Finset.card_range n

/-- **C1.**  For every address list and every worker pool of size `N ≥ 1`,
`distributeTasks` returns a sequence of balances with the same length as the
input list, in which position `i` holds the balance obtained for the address at
position `i` of the input, regardless of which worker served each address and
regardless of the order in which the individual queries complete: in any
reachable terminal state (queue drained, all launched queries completed — the
`Promise.all` join) the results array is input-length and slot `i` holds the
query result of input address `i`, served by some worker `w < N`. -/
theorem distributeTasks_output_aligned (bal : ℕ → String → ℤ)
    (input : List String) (n : ℕ) (hn : 1 ≤ n) (s : DistState)
    (hr : Reachable bal input n s) (hq : s.queue = []) (hf : s.inflight = []) :
    s.results.length = input.length ∧
    ∀ i, i < input.length →
      ∃ w a, w < n ∧ input[i]? = some a ∧
        s.results[i]? = some (some (bal w a)) := by
  have hinv := inv_reachable hr
  have hle := hinv.next_le
  have hns : s.nextSlot = input.length := by
    have h1 := hinv.queue_eq
    rw [hq] at h1
    have h2 := List.drop_eq_nil_iff.mp h1.symm
    omega
  refine ⟨hinv.res_len, ?_⟩
  intro i hi
  exact hinv.res_done i (by omega) (by simp [hf])

/-- Balance oracle for the concrete distributor runs below. -/
def exBal : ℕ → String → ℤ := fun _ a => (a.length : ℤ)

/-- The state a two-address, one-worker run ends in. -/
def exFinal : DistState :=
  ⟨[], [false], [], [some 1, some 1], 2⟩

/-- An intermediate state of the same run: the first query is in flight. -/
def exMid : DistState := ⟨["b"], [true], [(0, 0, "a")], [none, none], 1⟩

theorem exMid_reachable : Reachable exBal ["a", "b"] 1 exMid :=
  Reachable.step Reachable.init (Step.assign _ "a" ["b"] 0 rfl rfl rfl)

theorem exFinal_reachable : Reachable exBal ["a", "b"] 1 exFinal :=
  Reachable.step
    (Reachable.step
      (Reachable.step exMid_reachable
        (Step.complete _ 0 0 "a" [] [] rfl))
      (Step.assign _ "b" [] 0 rfl rfl rfl))
    (Step.complete _ 1 0 "b" [] [] rfl)

theorem distributeTasks_output_aligned_witness :
    1 ≤ 1 ∧ exFinal.queue = [] ∧ exFinal.inflight = [] ∧
      (exFinal.results.length = (["a", "b"] : List String).length ∧
       ∀ i, i < (["a", "b"] : List String).length →
         ∃ w a, w < 1 ∧ (["a", "b"] : List String)[i]? = some a ∧
           exFinal.results[i]? = some (some (exBal w a))) :=
  ⟨by decide, rfl, rfl,
   distributeTasks_output_aligned exBal ["a", "b"] 1 (by decide) exFinal
     exFinal_reachable rfl rfl⟩

/-- **C2.**  For every run of `distributeTasks` over a worker pool of size `N`,
at no reachable state are more than `N` balance queries in flight, and no
single worker ever has more than one outstanding query; every in-flight query's
worker moreover has its `isBusy` flag set (a worker is only assigned while the
flag is `false`, the flag is set at assignment and cleared only on completion —
the shape of `Step.assign` / `Step.complete`). -/
theorem distributeTasks_concurrency_bound (bal : ℕ → String → ℤ)
    (input : List String) (n : ℕ) (s : DistState)
    (hr : Reachable bal input n s) :
    s.inflight.length ≤ n ∧
    (s.inflight.map (fun e => e.2.1)).Nodup ∧
    (∀ e ∈ s.inflight, s.busy[e.2.1]? = some true) := by
  have hinv := inv_reachable hr
  have hlen : (s.inflight.map (fun e => e.2.1)).length ≤ n := by
    refine nodup_lt_length_le hinv.workers_nodup ?_
    intro x hx
    rcases List.mem_map.mp hx with ⟨e, he, hee⟩
    exact hee ▸ hinv.infl_worker_lt e he
  exact ⟨by simpa using hlen, hinv.workers_nodup, hinv.infl_worker_busy⟩

theorem distributeTasks_concurrency_bound_witness :
    exMid.inflight.length ≤ 1 ∧
    (exMid.inflight.map (fun e => e.2.1)).Nodup ∧
    (∀ e ∈ exMid.inflight, exMid.busy[e.2.1]? = some true) :=
  distributeTasks_concurrency_bound exBal ["a", "b"] 1 exMid exMid_reachable

/-- Auxiliary induction for `getBalanceOf`: shifted attempt counter. -/
theorem getBalanceOf_shift (call : String → String → ℕ → Option ℤ)
    (t a : String) :
    ∀ (M : ℕ) (v : ℤ) (k fuel : ℕ),
      (∀ j, j < M → call t a (k + j) = none) → call t a (k + M) = some v →
      M < fuel → getBalanceOf call t a fuel k = some (v, M + 1) := by
  intro M
  induction M with
  | zero =>
    intro v k fuel hfail hsucc hfuel
    match fuel, hfuel with
    | f + 1, _ =>
      simp only [getBalanceOf]
      rw [show k + 0 = k from rfl] at hsucc
      rw [hsucc]
  | succ M ih =>
    intro v k fuel hfail hsucc hfuel
    match fuel, hfuel with
    | f + 1, hfuel =>
      have h0 : call t a k = none := by
        have := hfail 0 (Nat.succ_pos M)
        simpa using this
      have hrec : getBalanceOf call t a f (k + 1) = some (v, M + 1) := by
        refine ih v (k + 1) f ?_ ?_ (by omega)
        · intro j hj
          have := hfail (j + 1) (by omega)
          simpa [Nat.add_assoc, Nat.add_comm 1 j] using this
        · have : k + (M + 1) = k + 1 + M := by omega
          rw [← this]
          exact hsucc
      simp only [getBalanceOf, h0, hrec]

/-- **C3.**  For every worker and address, if the underlying `balanceOf` call
fails `M` times and then succeeds with value `v`, `getBalanceOf` returns `v`
having issued exactly `M + 1` calls, all against the same worker's contract
handle and the same address (the recursion passes `token` and `address` through
unchanged), with no retry limit (any fuel beyond `M` suffices) and no backoff;
and a query that fails forever never surfaces a result or an error (no fuel
makes it return). -/
theorem getBalanceOf_retries (call : String → String → ℕ → Option ℤ)
    (token address : String) (M : ℕ) (v : ℤ)
    (hfail : ∀ j, j < M → call token address j = none)
    (hsucc : call token address M = some v) :
    (∀ fuel, M < fuel → getBalanceOf call token address fuel 0 = some (v, M + 1)) ∧
    (∀ call2 : String → String → ℕ → Option ℤ,
      (∀ j, call2 token address j = none) →
      ∀ fuel k, getBalanceOf call2 token address fuel k = none) := by
  constructor
  · intro fuel hfuel
    exact getBalanceOf_shift call token address M v 0 fuel
      (by simpa using hfail) (by simpa using hsucc) hfuel
  · intro call2 hall fuel
    induction fuel with
    | zero => intro k; simp [getBalanceOf]
    | succ f ih => intro k; simp only [getBalanceOf, hall k, ih (k + 1)]

theorem getBalanceOf_retries_witness :
    (∀ j, j < 2 → (fun _ _ j => if j < 2 then none else some 7)
        "token" "addr" j = (none : Option ℤ)) ∧
    (fun _ _ j => if j < 2 then none else some 7) "token" "addr" 2 = some (7 : ℤ) ∧
    ((∀ fuel, 2 < fuel →
        getBalanceOf (fun _ _ j => if j < 2 then none else some 7)
          "token" "addr" fuel 0 = some (7, 3)) ∧
     (∀ call2 : String → String → ℕ → Option ℤ,
        (∀ j, call2 "token" "addr" j = none) →
        ∀ fuel k, getBalanceOf call2 "token" "addr" fuel k = none)) :=
  ⟨by decide, by decide,
   getBalanceOf_retries (fun _ _ j => if j < 2 then none else some 7)
     "token" "addr" 2 7 (by decide) (by decide)⟩

theorem buildRecords_pos (d : ℕ) (p : ℚ) :
    ∀ (bs : List ℤ) (cs : List String) (r : BalanceRecord),
      r ∈ buildRecords d p bs cs → 0 < r.amount := by
  intro bs
  induction bs with
  | nil => intro cs r hr; simp [buildRecords] at hr
  | cons b bs ih =>
    intro cs r hr
    cases cs with
    | nil => simp [buildRecords] at hr
    | cons c cs =>
      by_cases hb : 0 < b
      · simp only [buildRecords, if_pos hb] at hr
        rcases List.mem_cons.mp hr with h | h
        · subst h; exact hb
        · exact ih cs r h
      · simp only [buildRecords, if_neg hb] at hr
        exact ih cs r hr

/-- **C6.**  Aggregation in `findBalances` creates a record only for strictly
positive balances and returns the records sorted in descending order of
`roundedAmount`; in particular for balances `[5, 0, 100, 3]` at 0 decimals with
price 1 the `roundedAmount` sequence is `[100, 5, 3]` and no record exists for
the zero balance. -/
theorem findBalances_positive_sorted (balances : List ℤ)
    (contractList : List String) (decimals : ℕ) (price : ℚ) :
    List.Sorted recordGE (findBalancesRecords balances contractList decimals price) ∧
    (∀ r ∈ findBalancesRecords balances contractList decimals price, 0 < r.amount) ∧
    (findBalancesRecords [5, 0, 100, 3] ["a", "b", "c", "d"] 0 1).map
        (fun r => r.roundedAmount) = [100, 5, 3] := by
  refine ⟨List.sorted_insertionSort recordGE _, ?_, ?_⟩
  · intro r hr
    have hmem : r ∈ buildRecords decimals price balances contractList :=
      (List.perm_insertionSort recordGE _).mem_iff.mp hr
    exact buildRecords_pos decimals price balances contractList r hmem
  · decide

theorem findBalances_positive_sorted_witness :
    ((⟨100, 100 / 10 ^ 0, numberWithCommas (((100 / 10 ^ 0 : ℤ) : ℚ) * 1), "c"⟩ :
        BalanceRecord) ∈
      findBalancesRecords [5, 0, 100, 3] ["a", "b", "c", "d"] 0 1) ∧
    0 < (100 : ℤ) :=
  ⟨List.Mem.head _,
   (findBalances_positive_sorted [5, 0, 100, 3] ["a", "b", "c", "d"] 0 1).2.1
     _ (List.Mem.head _)⟩

theorem buildRecords_mem_of_getElem (d : ℕ) (p : ℚ) :
    ∀ (bs : List ℤ) (cs : List String) (i : ℕ) (b : ℤ) (c : String),
      bs[i]? = some b → cs[i]? = some c → 0 < b →
      (⟨b, b / (10 : ℤ) ^ d,
        numberWithCommas (((b / (10 : ℤ) ^ d : ℤ) : ℚ) * p), c⟩ : BalanceRecord) ∈
        buildRecords d p bs cs := by
  intro bs
  induction bs with
  | nil => intro cs i b c hb hc hpos; simp at hb
  | cons b0 bs ih =>
    intro cs i b c hb hc hpos
    cases cs with
    | nil => simp at hc
    | cons c0 cs =>
      cases i with
      | zero =>
        simp only [List.getElem?_cons_zero, Option.some_inj] at hb hc
        subst hb; subst hc
        simp only [buildRecords, if_pos hpos]
        exact List.mem_cons_self _ _
      | succ i =>
        simp only [List.getElem?_cons_succ] at hb hc
        have htail := ih cs i b c hb hc hpos
        by_cases hb0 : 0 < b0
        · simp only [buildRecords, if_pos hb0]
          exact List.mem_cons_of_mem _ htail
        · simp only [buildRecords, if_neg hb0]
          exact htail

/-- **C8.**  A record whose `roundedAmount` is below `1e-6` in display — in
particular a strictly positive raw balance smaller than `10^decimals`, which
integer-divides to 0 — still appears in the aggregated list, and its dollar
value is formatted as the string `"0.00"`; and `numberWithCommas` renders every
value below `0.000001` as `"0.00"`. -/
theorem findBalances_dust_record (balances : List ℤ) (contractList : List String)
    (decimals : ℕ) (price : ℚ) (i : ℕ) (b : ℤ) (c : String)
    (hb : balances[i]? = some b) (hc : contractList[i]? = some c)
    (hpos : 0 < b) (hsmall : b < (10 : ℤ) ^ decimals) :
    (⟨b, 0, "0.00", c⟩ : BalanceRecord) ∈
      findBalancesRecords balances contractList decimals price ∧
    ∀ x : ℚ, x < 1 / 1000000 → numberWithCommas x = "0.00" := by
  have hdiv : b / (10 : ℤ) ^ decimals = 0 :=
    Int.ediv_eq_zero_of_lt (Int.le_of_lt hpos) hsmall
  have hnwc : ∀ x : ℚ, x < 1 / 1000000 → numberWithCommas x = "0.00" := by
    intro x hx
    unfold numberWithCommas
    rw [if_pos hx]
  refine ⟨?_, hnwc⟩
  have hmem := buildRecords_mem_of_getElem decimals price balances contractList
    i b c hb hc hpos
  rw [hdiv] at hmem
  have hzero : (((0 : ℤ) : ℚ) * price) = 0 := by simp
  rw [hzero, hnwc 0 (by norm_num)] at hmem
  exact (List.perm_insertionSort recordGE _).mem_iff.mpr hmem

theorem findBalances_dust_record_witness :
    ([(1 : ℤ)] : List ℤ)[0]? = some 1 ∧ (["x"] : List String)[0]? = some "x" ∧
    (0 : ℤ) < 1 ∧ (1 : ℤ) < (10 : ℤ) ^ 18 ∧
    ((⟨1, 0, "0.00", "x"⟩ : BalanceRecord) ∈
        findBalancesRecords [1] ["x"] 18 1 ∧
      ∀ x : ℚ, x < 1 / 1000000 → numberWithCommas x = "0.00") :=
  ⟨by decide, by decide, by decide, by decide,
   findBalances_dust_record [1] ["x"] 18 1 0 1 "x"
     (by decide) (by decide) (by decide) (by decide)⟩

/-! ### Helper lemmas for the store and the exclusion loop -/

theorem readRef_writeRef_self (st : Store) (r : ℕ) (v : List String)
    (h : r < st.length) : readRef (writeRef st r v) r = v := by
  unfold readRef writeRef
  rw [List.getD_eq_getElem?_getD, List.getElem?_set_self h]
  rfl

theorem readRef_writeRef_ne (st : Store) (r r2 : ℕ) (v : List String)
    (h : r ≠ r2) : readRef (writeRef st r v) r2 = readRef st r2 := by
  unfold readRef writeRef
  rw [List.getD_eq_getElem?_getD, List.getElem?_set_ne h,
    ← List.getD_eq_getElem?_getD]

theorem readRef_alloc_new (st : Store) (v : List String) :
    readRef (st ++ [v]) st.length = v := by
  unfold readRef
  rw [List.getD_eq_getElem?_getD, List.getElem?_append_right (Nat.le_refl _)]
  simp

theorem readRef_alloc_old (st : Store) (v : List String) (r : ℕ)
    (h : r < st.length) : readRef (st ++ [v]) r = readRef st r := by
  unfold readRef
  rw [List.getD_eq_getElem?_getD, List.getElem?_append_left h,
    ← List.getD_eq_getElem?_getD]

theorem spliceOutFirst_eq_erase (l : List String) (ex : String) :
    spliceOutFirst l ex = l.erase ex := by
  simp only [spliceOutFirst]
  by_cases hmem : ex ∈ l
  · rw [if_pos (List.indexOf_lt_length.mpr hmem), List.eraseIdx_indexOf_eq_erase]
  · have heq : l.indexOf ex = l.length := List.indexOf_eq_length.mpr hmem
    rw [if_neg (by rw [heq]; exact Nat.lt_irrefl _), List.erase_of_not_mem hmem]

theorem applyExclusions_sublist :
    ∀ (excluded l : List String), List.Sublist (applyExclusions l excluded) l := by
  intro excluded
  induction excluded with
  | nil => intro l; exact List.Sublist.refl l
  | cons ex exs ih =>
    intro l
    have h1 : applyExclusions l (ex :: exs) =
        applyExclusions (spliceOutFirst l ex) exs := rfl
    rw [h1]
    refine List.Sublist.trans (ih _) ?_
    rw [spliceOutFirst_eq_erase]
    exact List.erase_sublist ex l

theorem spliceStep_read_ne (excluded : List String) (st : Store) (r r2 : ℕ)
    (h : r2 ≠ r) :
    readRef (exclusionLoopHeap excluded st r) r2 = readRef st r2 := by
  induction excluded generalizing st with
  | nil => rfl
  | cons ex exs ih =>
    show readRef (exclusionLoopHeap exs _ r) r2 = _
    rw [ih]
    simp only []
    split
    · exact readRef_writeRef_ne _ _ _ _ (fun hh => h hh.symm)
    · rfl

theorem exclusionLoopHeap_read_self (excluded : List String) (st : Store)
    (r : ℕ) (h : r < st.length) :
    readRef (exclusionLoopHeap excluded st r) r =
      applyExclusions (readRef st r) excluded := by
  induction excluded generalizing st with
  | nil => rfl
  | cons ex exs ih =>
    show readRef (exclusionLoopHeap exs _ r) r = _
    have hlen : (let l := readRef st r
        let i := l.indexOf ex
        if i < l.length then writeRef st r (l.eraseIdx i) else st).length =
        st.length := by
      simp only []
      split
      · simp [writeRef]
      · rfl
    rw [ih _ (hlen ▸ h)]
    have hread : readRef
        (let l := readRef st r
         let i := l.indexOf ex
         if i < l.length then writeRef st r (l.eraseIdx i) else st) r =
        spliceOutFirst (readRef st r) ex := by
      simp only [spliceOutFirst]
      split
      · exact readRef_writeRef_self _ _ _ h
      · rfl
    rw [hread]
    rfl

/-- **C5.**  A token whose metadata resolution reports it invalid yields a
`ScanResult` with `ticker = null`, `price = 0`, `decimals = 18` and an empty
records list, and no balance query is issued for any address of the list. -/
theorem processOneToken_invalid_token (o : TokenOracles) (bal : String → ℤ)
    (em : List (String × List String)) (st : Store) (contractRef : ℕ)
    (tokenAddress : String)
    (hinv : (getTokenInfo o tokenAddress).valid = false) :
    (processOneToken o bal em st contractRef tokenAddress).2.1 =
      ⟨tokenAddress, none, 18, 0, []⟩ ∧
    (processOneToken o bal em st contractRef tokenAddress).2.2 = [] := by
  unfold processOneToken
  simp [hinv]

/-- Oracles under which every metadata lookup throws. -/
def invalidOracles : TokenOracles := ⟨none, none, none, none, none, none⟩

theorem processOneToken_invalid_token_witness :
    (getTokenInfo invalidOracles "0xdead").valid = false ∧
    ((processOneToken invalidOracles (fun _ => 0) [] [[]] 0 "0xdead").2.1 =
        ⟨"0xdead", none, 18, 0, []⟩ ∧
     (processOneToken invalidOracles (fun _ => 0) [] [[]] 0 "0xdead").2.2 = []) :=
  ⟨by decide,
   processOneToken_invalid_token invalidOracles (fun _ => 0) [] [[]] 0 "0xdead"
     (by decide)⟩

/-- **C7.**  The exclusion step removes at most one occurrence of each excluded
address (exactly one when present, a no-op when absent), preserves the relative
order of the remaining addresses (the working list is a sublist of the
original), and applies only to scans of the configured token: a token with no
entry in the exclusion map scans the list unchanged, and the addresses actually
queried by `processOneToken` are exactly `workingList` of this token over the
caller's list. -/
theorem processOneToken_exclusion_scoped :
    (∀ (l : List String) (ex : String),
        (ex ∈ l → (spliceOutFirst l ex).length + 1 = l.length ∧
          (spliceOutFirst l ex).count ex + 1 = l.count ex) ∧
        (ex ∉ l → spliceOutFirst l ex = l) ∧
        List.Sublist (spliceOutFirst l ex) l) ∧
    (∀ (l excluded : List String), List.Sublist (applyExclusions l excluded) l) ∧
    (∀ (em : List (String × List String)) (tok : String) (l : List String),
        em.lookup tok = none → workingList em tok l = l) ∧
    (∀ (o : TokenOracles) (bal : String → ℤ) (em : List (String × List String))
        (st : Store) (r : ℕ) (tok : String), r < st.length →
        (getTokenInfo o tok).valid = true →
        (processOneToken o bal em st r tok).2.2 =
          workingList em tok (readRef st r)) := by
  refine ⟨?_, fun l excluded => applyExclusions_sublist excluded l, ?_, ?_⟩
  · intro l ex
    rw [spliceOutFirst_eq_erase]
    refine ⟨?_, fun hnot => List.erase_of_not_mem hnot, List.erase_sublist ex l⟩
    intro hmem
    constructor
    · exact List.length_erase_add_one hmem
    · have h1 := List.count_erase_self ex l
      have h2 : 0 < l.count ex := List.count_pos_iff.mpr hmem
      omega
  · intro em tok l hnone
    simp [workingList, hnone]
  · intro o bal em st r tok hr hvalid
    unfold processOneToken
    simp only [allocRef, hvalid, if_true]
    cases hlk : em.lookup tok with
    | none =>
      simp only [hlk, workingList]
      exact readRef_alloc_new st (readRef st r)
    | some excluded =>
      simp only [hlk, workingList]
      rw [exclusionLoopHeap_read_self excluded _ st.length
        (by simp), readRef_alloc_new st (readRef st r)]

theorem processOneToken_exclusion_scoped_witness :
    ("a" ∈ (["a", "b", "a"] : List String)) ∧
    ((spliceOutFirst ["a", "b", "a"] "a").length + 1 =
        (["a", "b", "a"] : List String).length ∧
     (spliceOutFirst ["a", "b", "a"] "a").count "a" + 1 =
        (["a", "b", "a"] : List String).count "a") :=
  ⟨by decide,
   (processOneToken_exclusion_scoped.1 ["a", "b", "a"] "a").1 (by decide)⟩

/-- **C10.**  `processOneToken` leaves the caller's `contractList` array
unchanged: the exclusion splices happen only on the freshly allocated private
copy, so after a scan of any token — valid or invalid — the array behind the
caller's reference holds the same elements in the same order as before. -/
theorem processOneToken_preserves_caller_list (o : TokenOracles)
    (bal : String → ℤ) (em : List (String × List String)) (st : Store)
    (r : ℕ) (tok : String) (hr : r < st.length) :
    readRef ((processOneToken o bal em st r tok).1) r = readRef st r := by
  have hne : r ≠ st.length := Nat.ne_of_lt hr
  unfold processOneToken
  simp only [allocRef]
  split
  · cases hlk : em.lookup tok with
    | none =>
      simp only [hlk]
      exact readRef_alloc_old st _ r hr
    | some excluded =>
      simp only [hlk]
      rw [spliceStep_read_ne excluded _ st.length r hne]
      exact readRef_alloc_old st _ r hr
  · cases hlk : em.lookup tok with
    | none =>
      simp only [hlk]
      exact readRef_alloc_old st _ r hr
    | some excluded =>
      simp only [hlk]
      rw [spliceStep_read_ne excluded _ st.length r hne]
      exact readRef_alloc_old st _ r hr

theorem processOneToken_preserves_caller_list_witness :
    0 < ([["alice", "bob"]] : Store).length ∧
    readRef ((processOneToken invalidOracles (fun _ => 0) []
        [["alice", "bob"]] 0 "0xdead").1) 0 =
      readRef [["alice", "bob"]] 0 :=
  ⟨by decide,
   processOneToken_preserves_caller_list invalidOracles (fun _ => 0) []
     [["alice", "bob"]] 0 "0xdead" (by decide)⟩

/-- **C9.**  A token whose metadata lookup cannot obtain a numeric decimals
value (the `decimals()` call throws, or its value converts to `NaN`) scans with
`decimals = 18`; a token whose price lookup fails (both fetches throw or return
non-200) scans with `price = 0` instead of failing; and the divisor used by
aggregation is `10 ^ decimals` with these defaults applied. -/
theorem getTokenInfo_defaults (addr : String) (sc tc s32 : Option String)
    (dc : Option (Option ℕ)) (f1 f2 : Option PriceObj) :
    (getTokenInfo ⟨sc, tc, s32, none, f1, f2⟩ addr).decimals = 18 ∧
    (getTokenInfo ⟨sc, tc, s32, some none, f1, f2⟩ addr).decimals = 18 ∧
    (getTokenInfo ⟨sc, tc, s32, dc, none, none⟩ addr).price = 0 ∧
    ∀ (balances : List ℤ) (cs : List String) (p : ℚ),
      findBalancesRecords balances cs
          (getTokenInfo ⟨sc, tc, s32, none, f1, f2⟩ addr).decimals p =
        findBalancesRecords balances cs 18 p := by
  refine ⟨rfl, rfl, ?_, fun _ _ _ => rfl⟩
  simp [getTokenInfo]

/-! ### Helper lemmas for the report formatter -/

theorem foldl_amount_shift :
    ∀ (rs : List BalanceRecord) (x : ℤ),
      rs.foldl (fun s r => s + r.amount) x =
        x + rs.foldl (fun s r => s + r.amount) 0 := by
  intro rs
  induction rs with
  | nil => intro x; simp
  | cons r rs ih =>
    intro x
    simp only [List.foldl_cons]
    rw [ih (x + r.amount), ih (0 + r.amount)]
    ring

theorem foldl_snd_sum (g : String × ℤ → BalanceRecord → String) :
    ∀ (records : List BalanceRecord) (acc : String × ℤ),
      (records.foldl (fun a r => (g a r, a.2 + r.amount)) acc).2 =
        acc.2 + records.foldl (fun s r => s + r.amount) 0 := by
  intro records
  induction records with
  | nil => intro acc; simp
  | cons r rs ih =>
    intro acc
    simp only [List.foldl_cons]
    rw [ih, foldl_amount_shift rs (0 + r.amount)]
    ring

/-! ### Evaluating `roundDouble` -/

theorem int_log2_eq (q : ℚ) (n : ℤ) (hq : 0 < q)
    (h1 : ((2 : ℕ) : ℚ) ^ n ≤ q) (h2 : q < ((2 : ℕ) : ℚ) ^ (n + 1)) :
    Int.log 2 q = n := by
  have ha := (Int.zpow_le_iff_le_log (by norm_num) hq).mp h1
  have hb := (Int.lt_zpow_iff_log_lt (by norm_num) hq).mp h2
  omega

/-- Rounding a positive rational `(m + r) * 2^e` with a 53-bit integer part `m`
and a fractional part `r < 1/2` rounds down to `m * 2^e`. -/
theorem roundPos_eq_of (m e : ℤ) (r q : ℚ)
    (hm1 : 2 ^ 52 ≤ m) (hm2 : m < 2 ^ 53)
    (hr0 : 0 ≤ r) (hr1 : r < 1 / 2)
    (hq : q = ((m : ℚ) + r) * 2 ^ e) :
    roundPos q = (m : ℚ) * 2 ^ e := by
  have h2e : (0 : ℚ) < 2 ^ e := zpow_pos (by norm_num) e
  have hm1q : (2 : ℚ) ^ (52 : ℕ) ≤ (m : ℚ) := by exact_mod_cast hm1
  have hm2q : (m : ℚ) + 1 ≤ 2 ^ (53 : ℕ) := by exact_mod_cast hm2
  have hmr1 : (2 : ℚ) ^ (52 : ℕ) ≤ (m : ℚ) + r :=
    le_trans hm1q (le_add_of_nonneg_right hr0)
  have hmr2 : (m : ℚ) + r < 2 ^ (53 : ℕ) := by linarith
  have hmr0 : (0 : ℚ) < (m : ℚ) + r := lt_of_lt_of_le (by positivity) hmr1
  have hqpos : 0 < q := by rw [hq]; exact mul_pos hmr0 h2e
  have hpow52 : ((2 : ℕ) : ℚ) ^ (e + 52) = 2 ^ (52 : ℕ) * 2 ^ e := by
    push_cast
    rw [zpow_add₀ (by norm_num : (2 : ℚ) ≠ 0), mul_comm]
    congr 1
    exact zpow_natCast 2 52
  have hpow53 : ((2 : ℕ) : ℚ) ^ (e + 52 + 1) = 2 ^ (53 : ℕ) * 2 ^ e := by
    push_cast
    have he : e + 52 + 1 = e + 53 := by ring
    rw [he, zpow_add₀ (by norm_num : (2 : ℚ) ≠ 0), mul_comm]
    congr 1
    exact zpow_natCast 2 53
  have hlog : Int.log 2 q = e + 52 := by
    refine int_log2_eq q (e + 52) hqpos ?_ ?_
    · rw [hq, hpow52]
      exact mul_le_mul_of_nonneg_right hmr1 h2e.le
    · rw [hq, hpow53]
      exact mul_lt_mul_of_pos_right hmr2 h2e
  have hqdiv : q / 2 ^ e = (m : ℚ) + r := by
    rw [hq]
    exact mul_div_cancel_right₀ _ (ne_of_gt h2e)
  have hfr : ⌊r⌋ = 0 := Int.floor_eq_zero_iff.mpr ⟨hr0, by linarith⟩
  have hfl : ⌊(m : ℚ) + r⌋ = m := by
    rw [Int.floor_int_add, hfr, add_zero]
  simp only [roundPos]
  rw [hlog]
  rw [show e + 52 - 52 = e from by ring]
  rw [hqdiv, hfl]
  rw [show (m : ℚ) + r - (m : ℚ) = r from by ring]
  rw [if_neg (not_lt.mpr hr1.le), if_neg hr1.ne]

theorem roundPos_eq_of_nonneg (m : ℤ) (k : ℕ) (r q : ℚ)
    (hm1 : 2 ^ 52 ≤ m) (hm2 : m < 2 ^ 53) (hr0 : 0 ≤ r) (hr1 : r < 1 / 2)
    (hq : q = ((m : ℚ) + r) * 2 ^ k) :
    roundPos q = (m : ℚ) * 2 ^ k := by
  have hz : (2 : ℚ) ^ ((k : ℕ) : ℤ) = 2 ^ k := zpow_natCast 2 k
  have h := roundPos_eq_of m (k : ℤ) r q hm1 hm2 hr0 hr1 (by rw [hz]; exact hq)
  rw [h, hz]

theorem roundPos_eq_of_neg (m : ℤ) (k : ℕ) (r q : ℚ)
    (hm1 : 2 ^ 52 ≤ m) (hm2 : m < 2 ^ 53) (hr0 : 0 ≤ r) (hr1 : r < 1 / 2)
    (hq : q * 2 ^ k = (m : ℚ) + r) :
    roundPos q = (m : ℚ) / 2 ^ k := by
  have hk0 : (2 : ℚ) ^ k ≠ 0 := by positivity
  have hz : (2 : ℚ) ^ (-(k : ℤ)) = ((2 : ℚ) ^ k)⁻¹ := by
    rw [zpow_neg]
    congr 1
    exact zpow_natCast 2 k
  have hq2 : q = ((m : ℚ) + r) * 2 ^ (-(k : ℤ)) := by
    rw [hz, ← hq, mul_inv_cancel_right₀ hk0]
  have h := roundPos_eq_of m (-(k : ℤ)) r q hm1 hm2 hr0 hr1 hq2
  rw [h, hz, div_eq_mul_inv]

theorem roundDouble_of_pos {q : ℚ} (hq : 0 < q) : roundDouble q = roundPos q := by
  unfold roundDouble
  rw [if_neg (ne_of_gt hq), if_neg (not_lt.mpr hq.le)]

/-- `Number(3000000000000000003n)`: the sum exceeds `2^53`; the ulp at this
magnitude is `2^9 = 512` and the remainder `3` rounds down, so the nearest
double is exactly `3·10^18`. -/
theorem roundDouble_big_sum :
    roundDouble (3000000000000000003 : ℚ) = 3000000000000000000 := by
  rw [roundDouble_of_pos (by norm_num),
    roundPos_eq_of_nonneg 5859375000000000 9 (3 / 512) _
      (by norm_num) (by norm_num) (by norm_num) (by norm_num) (by norm_num)]
  norm_num

/-- `Number('1e18')` is exact: `10^18 = 7812500000000000 · 2^7` with a 53-bit
significand. -/
theorem roundDouble_pow10_18 :
    roundDouble ((10 : ℚ) ^ (18 : ℕ)) = 10 ^ (18 : ℕ) := by
  rw [roundDouble_of_pos (by positivity),
    roundPos_eq_of_nonneg 7812500000000000 7 0 _
      (by norm_num) (by norm_num) (by norm_num) (by norm_num) (by norm_num)]
  norm_num

/-- `3` is exactly representable: `3 = 6755399441055744 / 2^51`. -/
theorem roundDouble_three : roundDouble (3 : ℚ) = 3 := by
  rw [roundDouble_of_pos (by norm_num),
    roundPos_eq_of_neg 6755399441055744 51 0 _
      (by norm_num) (by norm_num) (by norm_num) (by norm_num) (by norm_num)]
  norm_num

/-- The header total of `formatTokenResult`: the exact `BigInt` sum of the raw
amounts, converted once through double rounding and divided (in double
arithmetic) by the double nearest `10 ^ decimals`, then multiplied by the
price. -/
theorem formatTokenResult_asDollar_eq (res : ScanResult)
    (ht : strFalsy res.ticker = false) (hp : res.price ≠ -1) :
    (formatTokenResult res).asDollar =
      roundDouble (roundDouble (roundDouble
          ((res.records.foldl (fun s r => s + r.amount) 0 : ℤ) : ℚ) /
        roundDouble ((10 : ℚ) ^ res.decimals)) * res.price) := by
  unfold formatTokenResult
  rw [if_neg (by simp [ht]), if_neg hp]
  simp only []
  rw [foldl_snd_sum (fun a r =>
    a.1 ++ "Contract " ++ r.contract ++ " => " ++
      numberWithCommas (r.roundedAmount : ℚ) ++ " " ++ res.ticker.getD "" ++
      " ( $" ++ r.dollarValue ++ " )" ++ "\n") res.records ("", 0)]
  norm_num

/-- The spec's two-record example: raw balances `1000000000000000001` and
`2000000000000000002` at 18 decimals, price 1. -/
def exampleScan : ScanResult :=
  ⟨"T", some "TKN", 18, 1,
   [⟨1000000000000000001, 1, "1", "a"⟩, ⟨2000000000000000002, 2, "2", "b"⟩]⟩

theorem exampleScan_asDollar : (formatTokenResult exampleScan).asDollar = 3 := by
  rw [formatTokenResult_asDollar_eq exampleScan (by decide) (by decide)]
  have hsum : (exampleScan.records.foldl (fun s r => s + r.amount) 0 : ℤ) =
      3000000000000000003 := by decide
  rw [hsum]
  have hdec : exampleScan.decimals = 18 := rfl
  have hpr : exampleScan.price = 1 := rfl
  rw [hdec, hpr]
  rw [show ((3000000000000000003 : ℤ) : ℚ) = (3000000000000000003 : ℚ) from by
    norm_num]
  rw [roundDouble_big_sum, roundDouble_pow10_18]
  rw [show (3000000000000000000 : ℚ) / 10 ^ (18 : ℕ) = 3 from by norm_num]
  rw [roundDouble_three, mul_one, roundDouble_three]

/-- **C4 (counterexample).**  The claim as stated is false on the code: at its
own example — raw balances `[1000000000000000001, 2000000000000000002]` at 18
decimals, price 1 — the header total is exactly `3` (the exact `BigInt` sum
`3000000000000000003` rounds to the double `3·10^18`, and `10^18` is exactly
representable), which is not the exact quotient `3000000000000000003 / 10^18`
and coincides with the `1 + 2` of the individually rounded per-record
values. -/
theorem formatTokenResult_header_total_counterexample :
    (formatTokenResult exampleScan).asDollar = 3 ∧
    (3 : ℚ) ≠ (3000000000000000003 : ℚ) / 10 ^ (18 : ℕ) ∧
    (1 : ℚ) + 2 = 3 :=
  ⟨exampleScan_asDollar,
   by
     intro h
     rw [eq_div_iff (by norm_num : ((10 : ℚ) ^ (18 : ℕ)) ≠ 0)] at h
     norm_num at h,
   by norm_num⟩

/-- **C4 (amended).**  The header total produced by `formatTokenResult` is
computed from the exact `BigInt` sum of the records' raw amounts — accumulated
with no per-record rounding — converted once to a double and divided by the
double nearest `10 ^ decimals`, each operation rounded to nearest-even
binary64; in particular, for raw balances
`[1000000000000000001, 2000000000000000002]` at 18 decimals the exact sum is
`3000000000000000003`, whose double rounding makes the header total exactly
`3`, coinciding with the rounded per-record sum `1 + 2`. -/
theorem formatTokenResult_header_total_amended (res : ScanResult)
    (ht : strFalsy res.ticker = false) (hp : res.price ≠ -1) :
    (formatTokenResult res).asDollar =
      roundDouble (roundDouble (roundDouble
          ((res.records.foldl (fun s r => s + r.amount) 0 : ℤ) : ℚ) /
        roundDouble ((10 : ℚ) ^ res.decimals)) * res.price) ∧
    exampleScan.records.foldl (fun s r => s + r.amount) 0 =
      3000000000000000003 ∧
    (formatTokenResult exampleScan).asDollar = 3 :=
  ⟨formatTokenResult_asDollar_eq res ht hp, by decide, exampleScan_asDollar⟩

theorem formatTokenResult_header_total_amended_witness :
    strFalsy (ScanResult.ticker ⟨"X", some "A", 0, 0, []⟩) = false ∧
    ScanResult.price (⟨"X", some "A", 0, 0, []⟩ : ScanResult) ≠ -1 ∧
    ((formatTokenResult ⟨"X", some "A", 0, 0, []⟩).asDollar =
        roundDouble (roundDouble (roundDouble
            ((([] : List BalanceRecord).foldl (fun s r => s + r.amount) 0 : ℤ) : ℚ) /
          roundDouble ((10 : ℚ) ^ (0 : ℕ))) * 0) ∧
     exampleScan.records.foldl (fun s r => s + r.amount) 0 =
        3000000000000000003 ∧
     (formatTokenResult exampleScan).asDollar = 3) :=
  ⟨by decide, by decide,
   formatTokenResult_header_total_amended ⟨"X", some "A", 0, 0, []⟩ (by decide)
     (by decide)⟩

end LostTokens
